import Mathlib

/-!
Verification of the collection-tree view model of the digitization-toolkit
frontend: the tree state store (expanded set, children cache, loading set),
the expand-on-demand fetch orchestrator (`toggleExpand`, `loadAllDescendants`),
the tree materializer helpers (`getAllCollections`, `getCollectionIndent`),
and the two renderers (the recursive `CollectionTreeItem` component and the
inline depth-capped template of the second project-detail page).

JavaScript `Set<number>` values are modelled as duplicate-free insertion-order
lists of naturals; `Map<number, Collection[]>` values as association lists in
insertion order where `set` on an existing key overwrites in place (the JS
`Map.set` contract). The Collection Directory Client is a parameter
`fetch : Nat → Except String (List Collection)` (deterministic per id, as a
single HTTP round per key is what the code observes). Recursions of the source
that walk the cache (which in JS could diverge on a cyclic cache) take an
explicit fuel argument.
-/

namespace CollectionTree

/-- Collection record, restricted to the fields the tree logic reads:
server id, display name, owning project (for roots) and parent collection
(for nested collections). -/
structure Collection where
  id : Nat
  name : String
  project_id : Option Nat := none
  parent_collection_id : Option Nat := none
deriving DecidableEq, Repr

/-- JS `Set.add` followed by reassignment: append the element if absent. -/
def setAdd (s : List Nat) (x : Nat) : List Nat :=
  if x ∈ s then s else s ++ [x]

/-- JS `Set.delete`: remove the element. -/
def setDelete (s : List Nat) (x : Nat) : List Nat :=
  s.filter (fun y => y != x)

/-- JS `Map.get` on an association list. -/
def mapGet (m : List (Nat × List Collection)) (k : Nat) : Option (List Collection) :=
  match m with
  | [] => none
  | (k₁, v₁) :: rest => if k₁ = k then some v₁ else mapGet rest k

/-- JS `Map.set`: overwrite in place when the key exists (keeping its
insertion position), otherwise append the new entry. -/
def mapSet (m : List (Nat × List Collection)) (k : Nat) (v : List Collection) :
    List (Nat × List Collection) :=
  match m with
  | [] => [(k, v)]
  | (k₁, v₁) :: rest => if k₁ = k then (k, v) :: rest else (k₁, v₁) :: mapSet rest k v

/-- The tree state store: `expandedCollections`, `childCollectionsMap` and
`loadingChildren` of the project-detail pages. -/
structure TreeState where
  expanded : List Nat
  childMap : List (Nat × List Collection)
  loading : List Nat
deriving DecidableEq, Repr

/-- The children-cache update `childCollectionsMap = new Map(childCollectionsMap).set(id, children)`
shared by `toggleExpand` and `loadAllDescendants`. -/
def setChildren (s : TreeState) (parentId : Nat) (children : List Collection) : TreeState :=
  { s with childMap := mapSet s.childMap parentId children }

/-- `loadAllDescendants` of the project-detail pages: for each collection in
the list, fetch its children, record them in the cache (even when empty), and
recurse into non-empty child lists; a failed fetch for one collection is
logged and skipped. The `Promise.all` over siblings is linearised
left-to-right; per-key cache writes make the linearisation order immaterial.
Returns the updated cache together with the ids requested from the client. -/
def loadAllDescendants (fetch : Nat → Except String (List Collection)) :
    Nat → List Collection → List (Nat × List Collection) →
    List (Nat × List Collection) × List Nat
  | 0, _, m => (m, [])
  | _ + 1, [], m => (m, [])
  | fuel + 1, col :: rest, m =>
    let step :=
      match fetch col.id with
      | .ok children =>
        let m₁ := mapSet m col.id children
        if children.isEmpty then (m₁, [col.id])
        else
          let rec₁ := loadAllDescendants fetch fuel children m₁
          (rec₁.1, col.id :: rec₁.2)
      | .error _ => (m, [col.id])
    let rest₁ := loadAllDescendants fetch (fuel + 1) rest step.1
    (rest₁.1, step.2 ++ rest₁.2)
termination_by fuel cols _ => (fuel, cols.length)

/-- `toggleExpand` of the project-detail page: collapse when expanded
(no network call, cache retained); otherwise fetch-and-cache the children when
the cache has no key for the id (marking the node loading for the duration,
clearing it in `finally`), then add the id to the expanded set. Returns the
new state and the ids requested from the client. -/
def toggleExpand (fetch : Nat → Except String (List Collection)) (fuel : Nat)
    (collectionId : Nat) (s : TreeState) : TreeState × List Nat :=
  if collectionId ∈ s.expanded then
    ({ s with expanded := setDelete s.expanded collectionId }, [])
  else
    let afterLoad :=
      if (mapGet s.childMap collectionId).isSome then (s, [])
      else
        let loading₁ := setAdd s.loading collectionId
        match fetch collectionId with
        | .ok children =>
          let m₁ := mapSet s.childMap collectionId children
          let desc :=
            if children.isEmpty then (m₁, [])
            else loadAllDescendants fetch fuel children m₁
          ({ expanded := s.expanded, childMap := desc.1,
             loading := setDelete loading₁ collectionId },
           collectionId :: desc.2)
        | .error _ =>
          ({ s with loading := setDelete loading₁ collectionId }, [collectionId])
    ({ afterLoad.1 with expanded := setAdd afterLoad.1.expanded collectionId },
     afterLoad.2)

/-- One step of the recursive `CollectionTreeItem` component: emit the node at
its level, and when the node is expanded and its children are cached, emit the
cached children recursively at level + 1 (`svelte:self`). Fuel bounds the
recursion depth (the DOM recursion of the source is unbounded). -/
def renderTreeItem (s : TreeState) : Nat → Nat → Collection → List (Collection × Nat)
  | 0, level, c => [(c, level)]
  | fuel + 1, level, c =>
    (c, level) ::
      (if c.id ∈ s.expanded ∧ (mapGet s.childMap c.id).isSome then
        ((mapGet s.childMap c.id).getD []).flatMap (renderTreeItem s fuel (level + 1))
      else [])

/-- The full rendered sequence of the component-based project page: every
top-level collection rendered by `CollectionTreeItem` at level 0. -/
def renderTree (s : TreeState) (roots : List Collection) (fuel : Nat) :
    List (Collection × Nat) :=
  roots.flatMap (renderTreeItem s fuel 0)

/-- Modelled from the spec: a materialized collection tree, used to state the
pre-order contract of the Tree Materializer. -/
inductive VTree where
  | node : Collection → List VTree → VTree
deriving Repr

/-- Modelled from the spec: materialize the subtree of one collection, with a
node keeping its cached children exactly when it is in the expanded set and
its children-cache key is present, children in cached (client) order. -/
def buildVTree (s : TreeState) : Nat → Collection → VTree
  | 0, c => .node c []
  | fuel + 1, c =>
    .node c
      (if c.id ∈ s.expanded ∧ (mapGet s.childMap c.id).isSome then
        ((mapGet s.childMap c.id).getD []).map (buildVTree s fuel)
      else [])

/-- Modelled from the spec: depth-first pre-order flattening of a forest into
`(collection, depth)` pairs, a node followed immediately by its subtree at
depth + 1, then its right siblings. -/
def preorderFlatten : List VTree → Nat → List (Collection × Nat)
  | [], _ => []
  | .node c ts :: rest, d =>
    (c, d) :: (preorderFlatten ts (d + 1) ++ preorderFlatten rest d)
termination_by ts _ => sizeOf ts

/-- Modelled from the spec: `visibleNodes`, the pre-order flattening of the
materialized forest of the root collections. -/
def visibleNodesSpec (s : TreeState) (roots : List Collection) (fuel : Nat) :
    List (Collection × Nat) :=
  preorderFlatten (roots.map (buildVTree s fuel)) 0

/-- `getAllCollections`: inner helper `addChildren` — push the cached children
of the given parent, then recurse into each child in order. -/
def addChildren (m : List (Nat × List Collection)) : Nat → Nat → List Collection
  | 0, _ => []
  | fuel + 1, parentId =>
    match mapGet m parentId with
    | none => []
    | some children => children ++ children.flatMap (fun child => addChildren m fuel child.id)

/-- `getAllCollections` of the project-detail pages: the top-level collections
followed, for each top-level collection in order, by its cached descendants
gathered by `addChildren`. -/
def getAllCollections (roots : List Collection) (m : List (Nat × List Collection))
    (fuel : Nat) : List Collection :=
  roots ++ roots.flatMap (fun col => addChildren m fuel col.id)

/-- The `while` loop of `getCollectionIndent`: while the current collection
exists and has a parent id, append one two-space unit and move to the first
collection of the known list carrying that id. -/
def indentLoop (all : List Collection) : Nat → Option Collection → String
  | 0, _ => ""
  | _ + 1, none => ""
  | fuel + 1, some c =>
    match c.parent_collection_id with
    | none => ""
    | some p => "  " ++ indentLoop all fuel (all.find? (fun x => x.id == p))

/-- `getCollectionIndent` of the project-detail pages: resolve the collection
in `getAllCollections` and walk its `parent_collection_id` chain, two spaces
per resolved step. -/
def getCollectionIndent (roots : List Collection) (m : List (Nat × List Collection))
    (fuelAll fuelWalk : Nat) (collectionId : Nat) : String :=
  let all := getAllCollections roots m fuelAll
  indentLoop all fuelWalk (all.find? (fun x => x.id == collectionId))

/-- `hasChildren` of the inline project page: the cache has a non-empty list
for the id. -/
def hasChildren006 (s : TreeState) (id : Nat) : Bool :=
  match mapGet s.childMap id with
  | some children => !children.isEmpty
  | none => false

/-- The toggle-affordance condition of the inline template at levels 0–3:
`hasKids || loadingKids || !childCollectionsMap.has(id)`. -/
def showToggle006 (s : TreeState) (id : Nat) : Bool :=
  hasChildren006 s id || s.loading.contains id || !(mapGet s.childMap id).isSome

/-- Rendered items of the inline template: collection, nesting level, and
whether an expand-toggle control is shown. -/
abbrev RenderedItem := Collection × Nat × Bool

/-- Level-4 block of the inline template: the node is rendered with a spacer
instead of a toggle and its children are never rendered. -/
def render006L4 (_s : TreeState) (c : Collection) : List RenderedItem :=
  [(c, 4, false)]

/-- Level-3 block of the inline template. -/
def render006L3 (s : TreeState) (c : Collection) : List RenderedItem :=
  (c, 3, showToggle006 s c.id) ::
    (if c.id ∈ s.expanded ∧ (mapGet s.childMap c.id).isSome then
      ((mapGet s.childMap c.id).getD []).flatMap (render006L4 s)
    else [])

/-- Level-2 block of the inline template. -/
def render006L2 (s : TreeState) (c : Collection) : List RenderedItem :=
  (c, 2, showToggle006 s c.id) ::
    (if c.id ∈ s.expanded ∧ (mapGet s.childMap c.id).isSome then
      ((mapGet s.childMap c.id).getD []).flatMap (render006L3 s)
    else [])

/-- Level-1 block of the inline template. -/
def render006L1 (s : TreeState) (c : Collection) : List RenderedItem :=
  (c, 1, showToggle006 s c.id) ::
    (if c.id ∈ s.expanded ∧ (mapGet s.childMap c.id).isSome then
      ((mapGet s.childMap c.id).getD []).flatMap (render006L2 s)
    else [])

/-- Top-level block of the inline template. -/
def render006L0 (s : TreeState) (c : Collection) : List RenderedItem :=
  (c, 0, showToggle006 s c.id) ::
    (if c.id ∈ s.expanded ∧ (mapGet s.childMap c.id).isSome then
      ((mapGet s.childMap c.id).getD []).flatMap (render006L1 s)
    else [])

/-- The full rendered sequence of the inline (non-component) project page. -/
def render006 (s : TreeState) (roots : List Collection) : List RenderedItem :=
  roots.flatMap (render006L0 s)

/-- A JS `Set` container together with its object identity: `ref` changes
exactly when a new `Set` object is constructed, and is kept by in-place
`add`/`delete` calls. -/
structure RefSet where
  ref : Nat
  val : List Nat
deriving DecidableEq, Repr

/-- A JS `Map` container together with its object identity. -/
structure RefMap where
  ref : Nat
  val : List (Nat × List Collection)
deriving DecidableEq, Repr

/-- The tree state store with container identities and an allocation counter
for fresh objects. -/
structure RTreeState where
  expanded : RefSet
  childMap : RefMap
  loading : RefSet
  nextRef : Nat
deriving DecidableEq, Repr

/-- The lines `loadingChildren.add(collectionId); loadingChildren = loadingChildren;`
of `toggleExpand`: an in-place mutation of the loading set followed by a
self-assignment — the container keeps its identity. -/
def markLoadingInPlace (s : RTreeState) (id : Nat) : RTreeState :=
  { s with loading := ⟨s.loading.ref, setAdd s.loading.val id⟩ }

/-- The `finally` block lines `loadingChildren.delete(collectionId); loadingChildren = loadingChildren;`:
again an in-place mutation keeping the container identity. -/
def unmarkLoadingInPlace (s : RTreeState) (id : Nat) : RTreeState :=
  { s with loading := ⟨s.loading.ref, setDelete s.loading.val id⟩ }

/-- `loadAllDescendants` at the container-identity level: every cache write
constructs a fresh `Map` (`new Map(childCollectionsMap).set(...)`), bumping
the allocation counter; the loading set is never touched. -/
def loadAllDescendantsRefs (fetch : Nat → Except String (List Collection)) :
    Nat → List Collection → RefMap → Nat → RefMap × Nat
  | 0, _, m, n => (m, n)
  | _ + 1, [], m, n => (m, n)
  | fuel + 1, col :: rest, m, n =>
    let step :=
      match fetch col.id with
      | .ok children =>
        let m₁ : RefMap := ⟨n, mapSet m.val col.id children⟩
        if children.isEmpty then (m₁, n + 1)
        else loadAllDescendantsRefs fetch fuel children m₁ (n + 1)
      | .error _ => (m, n)
    loadAllDescendantsRefs fetch (fuel + 1) rest step.1 step.2
termination_by fuel cols _ _ => (fuel, cols.length)

/-- `toggleExpand` at the container-identity level: the expanded set is
replaced by a freshly constructed `Set` in both branches (`new Set(...)`),
the children cache by freshly constructed `Map`s, while the loading set is
only ever mutated in place. -/
def toggleExpandRefs (fetch : Nat → Except String (List Collection)) (fuel : Nat)
    (collectionId : Nat) (s : RTreeState) : RTreeState :=
  if collectionId ∈ s.expanded.val then
    { s with
      expanded := ⟨s.nextRef, setDelete s.expanded.val collectionId⟩,
      nextRef := s.nextRef + 1 }
  else
    let afterLoad :=
      if (mapGet s.childMap.val collectionId).isSome then s
      else
        let s₁ := markLoadingInPlace s collectionId
        match fetch collectionId with
        | .ok children =>
          let m₁ : RefMap := ⟨s₁.nextRef, mapSet s₁.childMap.val collectionId children⟩
          let desc :=
            if children.isEmpty then (m₁, s₁.nextRef + 1)
            else loadAllDescendantsRefs fetch fuel children m₁ (s₁.nextRef + 1)
          unmarkLoadingInPlace
            { s₁ with childMap := desc.1, nextRef := desc.2 } collectionId
        | .error _ => unmarkLoadingInPlace s₁ collectionId
    { afterLoad with
      expanded := ⟨afterLoad.nextRef, setAdd afterLoad.expanded.val collectionId⟩,
      nextRef := afterLoad.nextRef + 1 }

theorem mapGet_mapSet (m : List (Nat × List Collection)) (k : Nat)
    (v : List Collection) (j : Nat) :
    mapGet (mapSet m k v) j = if j = k then some v else mapGet m j := by
  induction m with
  | nil =>
    by_cases h : j = k
    · simp [mapSet, mapGet, h]
    · simp [mapSet, mapGet, h, Ne.symm h]
  | cons hd tl ih =>
    obtain ⟨k₁, v₁⟩ := hd
    by_cases h₁ : k₁ = k
    · subst h₁
      by_cases h₂ : j = k₁
      · subst h₂; simp [mapSet, mapGet]
      · simp [mapSet, mapGet, h₂, Ne.symm h₂]
    · by_cases h₂ : j = k₁
      · have hk : k₁ = j := h₂.symm
        have hjk : ¬j = k := by rw [h₂]; exact h₁
        simp [mapSet, mapGet, h₁, hk, hjk]
      · simp [mapSet, mapGet, h₁, ih, Ne.symm h₂]

theorem mapSet_idem (m : List (Nat × List Collection)) (k : Nat) (v : List Collection) :
    mapSet (mapSet m k v) k v = mapSet m k v := by
  induction m with
  | nil => simp [mapSet]
  | cons hd tl ih =>
    obtain ⟨k₁, v₁⟩ := hd
    by_cases h : k₁ = k
    · simp [mapSet, h]
    · simp [mapSet, h, ih]

theorem mem_setAdd_self (s : List Nat) (x : Nat) : x ∈ setAdd s x := by
  by_cases h : x ∈ s <;> simp [setAdd, h]

theorem not_mem_setDelete_self (s : List Nat) (x : Nat) : x ∉ setDelete s x := by
  simp [setDelete, List.mem_filter]

theorem setDelete_setAdd (s : List Nat) (x : Nat) :
    setDelete (setAdd s x) x = setDelete s x := by
  by_cases h : x ∈ s
  · simp [setAdd, h]
  · simp [setAdd, h, setDelete, List.filter_append]

/-- Claim C4: the `setChildren` cache update changes only the entry at the
written key, leaves every other key of the children cache unchanged, and does
not touch the expanded or loading sets — so overlapping expansions of
different nodes end with both entries present regardless of write order. -/
theorem setChildren_frame (s : TreeState) (p : Nat) (v : List Collection) (k : Nat) :
    mapGet (setChildren s p v).childMap k
      = (if k = p then some v else mapGet s.childMap k) ∧
    (setChildren s p v).expanded = s.expanded ∧
    (setChildren s p v).loading = s.loading :=
  ⟨mapGet_mapSet s.childMap p v k, rfl, rfl⟩

/-- Claim C8: applying the `setChildren` update twice with the same parent id
and an identical children list yields a store snapshot equal by value to
applying it once. -/
theorem setChildren_idempotent (s : TreeState) (id : Nat) (X : List Collection) :
    setChildren (setChildren s id X) id X = setChildren s id X := by
  simp [setChildren, mapSet_idem]

/-- Claim C1 as stated is false: on a collapsed, uncached node whose children
fetch fails, `toggleExpand` leaves the cache key absent but nevertheless adds
the node to the expanded set (the expansion step after the fetch attempt is
unconditional), so the node is observed expanded with no cached children. -/
theorem toggleExpand_failure_marks_expanded_cex :
    1 ∈ (toggleExpand (fun _ => .error "network") 0 1 ⟨[], [], []⟩).1.expanded ∧
    mapGet (toggleExpand (fun _ => .error "network") 0 1 ⟨[], [], []⟩).1.childMap 1
      = none := by
  decide

/-- Claim C1 (amended): when the children fetch issued by `toggleExpand` for a
collapsed, uncached id fails, the children cache is left unchanged (so the key
for the id is still absent and a later expand can retry), the id is cleared
from the loading set, exactly one request was issued — but the id IS added to
the expanded set; no children render for it since rendering requires a cache
key in addition to expansion. -/
theorem toggleExpand_failure_leaves_cache_absent
    (fetch : Nat → Except String (List Collection)) (fuel id : Nat) (s : TreeState)
    (hexp : id ∉ s.expanded) (hcache : mapGet s.childMap id = none)
    (e : String) (hfail : fetch id = .error e) :
    (toggleExpand fetch fuel id s).1.childMap = s.childMap ∧
    mapGet (toggleExpand fetch fuel id s).1.childMap id = none ∧
    (toggleExpand fetch fuel id s).1.loading = setDelete s.loading id ∧
    (toggleExpand fetch fuel id s).1.expanded = setAdd s.expanded id ∧
    (toggleExpand fetch fuel id s).2 = [id] := by
  simp [toggleExpand, hexp, hcache, hfail, setDelete_setAdd]

theorem toggleExpand_failure_leaves_cache_absent_witness :
    (toggleExpand (fun _ => .error "network") 2 5 ⟨[3], [(3, [])], [3]⟩).1.childMap
      = [(3, [])] ∧
    mapGet (toggleExpand (fun _ => .error "network") 2 5 ⟨[3], [(3, [])], [3]⟩).1.childMap 5
      = none ∧
    (toggleExpand (fun _ => .error "network") 2 5 ⟨[3], [(3, [])], [3]⟩).1.loading
      = [3] ∧
    (toggleExpand (fun _ => .error "network") 2 5 ⟨[3], [(3, [])], [3]⟩).1.expanded
      = [3, 5] ∧
    (toggleExpand (fun _ => .error "network") 2 5 ⟨[3], [(3, [])], [3]⟩).2 = [5] := by
  have h := toggleExpand_failure_leaves_cache_absent
    (fun _ => .error "network") 2 5 ⟨[3], [(3, [])], [3]⟩
    (by decide) (by decide) "network" rfl
  exact h

/-- Claim C3 as stated is false in its re-expansion half: a node can be in the
expanded set with no cached children (reachable via a failed fetch), and then
collapsing and re-toggling it does issue a children fetch. Concretely, with id
1 expanded and the cache empty, the collapse issues no request but the second
toggle requests id 1 from the client. -/
theorem toggleExpand_reexpand_refetch_cex :
    (toggleExpand (fun _ => .ok []) 1 1 ⟨[1], [], []⟩).2 = [] ∧
    (toggleExpand (fun _ => .ok [])
        1 1 (toggleExpand (fun _ => .ok []) 1 1 ⟨[1], [], []⟩).1).2 = [1] := by
  decide

/-- Claim C3 (amended): for every id in the expanded set, `toggleExpand`
issues no client request and changes the state only by removing the id from
the expanded set (cache and loading retained); and provided the children
cache has a key for the id, a subsequent `toggleExpand` re-expands it again
without any client request. -/
theorem toggleExpand_collapse_then_reexpand
    (fetch : Nat → Except String (List Collection)) (fuel id : Nat) (s : TreeState)
    (hexp : id ∈ s.expanded) :
    toggleExpand fetch fuel id s = ({ s with expanded := setDelete s.expanded id }, []) ∧
    (∀ l, mapGet s.childMap id = some l →
      toggleExpand fetch fuel id (toggleExpand fetch fuel id s).1 =
        ({ s with expanded := setAdd (setDelete s.expanded id) id }, [])) := by
  have hcollapse : toggleExpand fetch fuel id s
      = ({ s with expanded := setDelete s.expanded id }, []) := by
    simp [toggleExpand, hexp]
  refine ⟨hcollapse, fun l hl => ?_⟩
  rw [hcollapse]
  simp [toggleExpand, not_mem_setDelete_self, hl]

theorem toggleExpand_collapse_then_reexpand_witness :
    toggleExpand (fun _ => .error "down") 3 1 ⟨[1], [(1, [])], []⟩
      = (⟨[], [(1, [])], []⟩, []) ∧
    toggleExpand (fun _ => .error "down")
        3 1 (toggleExpand (fun _ => .error "down") 3 1 ⟨[1], [(1, [])], []⟩).1
      = (⟨[1], [(1, [])], []⟩, []) := by
  have h := toggleExpand_collapse_then_reexpand
    (fun _ => .error "down") 3 1 ⟨[1], [(1, [])], []⟩ (by decide)
  exact ⟨h.1, h.2 [] rfl⟩

theorem loadAllDescendants_preserves
    (fetch : Nat → Except String (List Collection)) (id : Nat) (R : List Collection)
    (hfetch : fetch id = .ok R) :
    ∀ fuel cols m, mapGet m id = some R →
      mapGet (loadAllDescendants fetch fuel cols m).1 id = some R := by
  intro fuel
  induction fuel with
  | zero => intro cols m h; simpa [loadAllDescendants] using h
  | succ fuel ih =>
    intro cols
    induction cols with
    | nil => intro m h; simpa [loadAllDescendants] using h
    | cons col rest ihc =>
      intro m h
      rw [loadAllDescendants]
      cases hcol : fetch col.id with
      | ok children =>
        have hm₁ : mapGet (mapSet m col.id children) id = some R := by
          rw [mapGet_mapSet]
          by_cases hid : id = col.id
          · rw [← hid] at hcol
            rw [hfetch] at hcol
            cases hcol
            simp [hid]
          · simp [hid, h]
        by_cases hemp : children.isEmpty
        · simpa [hcol, hemp] using ihc _ hm₁
        · simpa [hcol, hemp] using ihc _ (ih children _ hm₁)
      | error msg =>
        simpa [hcol] using ihc _ h

/-- Claim C5: when the children fetch issued by `toggleExpand` for a
collapsed, uncached id succeeds with list R (possibly empty), on completion
the children cache maps the id to R, the id is no longer in the loading set,
and the id is in the expanded set. -/
theorem toggleExpand_success_caches_children
    (fetch : Nat → Except String (List Collection)) (fuel id : Nat) (s : TreeState)
    (R : List Collection)
    (hexp : id ∉ s.expanded) (hcache : mapGet s.childMap id = none)
    (hok : fetch id = .ok R) :
    mapGet (toggleExpand fetch fuel id s).1.childMap id = some R ∧
    id ∉ (toggleExpand fetch fuel id s).1.loading ∧
    id ∈ (toggleExpand fetch fuel id s).1.expanded := by
  have hm₁ : mapGet (mapSet s.childMap id R) id = some R := by
    simp [mapGet_mapSet]
  by_cases hemp : R.isEmpty
  · simp only [toggleExpand, hexp, hcache, hok, hemp]
    exact ⟨by simpa using hm₁,
      by simpa using not_mem_setDelete_self (setAdd s.loading id) id,
      by simpa using mem_setAdd_self s.expanded id⟩
  · simp only [toggleExpand, hexp, hcache, hok, hemp]
    exact ⟨by simpa using loadAllDescendants_preserves fetch id R hok fuel R _ hm₁,
      by simpa using not_mem_setDelete_self (setAdd s.loading id) id,
      by simpa using mem_setAdd_self s.expanded id⟩

theorem toggleExpand_success_caches_children_witness :
    mapGet (toggleExpand (fun _ => .ok []) 4 2 ⟨[7], [(7, [])], []⟩).1.childMap 2
      = some [] ∧
    2 ∉ (toggleExpand (fun _ => .ok []) 4 2 ⟨[7], [(7, [])], []⟩).1.loading ∧
    2 ∈ (toggleExpand (fun _ => .ok []) 4 2 ⟨[7], [(7, [])], []⟩).1.expanded :=
  toggleExpand_success_caches_children (fun _ => .ok []) 4 2 ⟨[7], [(7, [])], []⟩ []
    (by decide) (by decide) rfl

theorem preorderFlatten_nil (d : Nat) : preorderFlatten [] d = [] := by
  rw [preorderFlatten]

theorem preorderFlatten_cons (c : Collection) (ts rest : List VTree) (d : Nat) :
    preorderFlatten (.node c ts :: rest) d
      = (c, d) :: (preorderFlatten ts (d + 1) ++ preorderFlatten rest d) := by
  rw [preorderFlatten]

theorem preorderFlatten_map_buildVTree (s : TreeState) :
    ∀ fuel d (cs : List Collection),
      preorderFlatten (cs.map (buildVTree s fuel)) d
        = cs.flatMap (renderTreeItem s fuel d) := by
  intro fuel
  induction fuel with
  | zero =>
    intro d cs
    induction cs with
    | nil => simp [preorderFlatten_nil]
    | cons c rest ihc =>
      rw [List.map_cons, List.flatMap_cons,
        show buildVTree s 0 c = VTree.node c [] from rfl,
        show renderTreeItem s 0 d c = [(c, d)] from rfl,
        preorderFlatten_cons, preorderFlatten_nil, ihc]
      simp
  | succ fuel ih =>
    intro d cs
    induction cs with
    | nil => simp [preorderFlatten_nil]
    | cons c rest ihc =>
      rw [List.map_cons, List.flatMap_cons,
        show buildVTree s (fuel + 1) c
            = VTree.node c
                (if c.id ∈ s.expanded ∧ (mapGet s.childMap c.id).isSome then
                  ((mapGet s.childMap c.id).getD []).map (buildVTree s fuel)
                else []) from rfl,
        show renderTreeItem s (fuel + 1) d c
            = (c, d) ::
                (if c.id ∈ s.expanded ∧ (mapGet s.childMap c.id).isSome then
                  ((mapGet s.childMap c.id).getD []).flatMap
                    (renderTreeItem s fuel (d + 1))
                else []) from rfl,
        preorderFlatten_cons, ihc]
      by_cases hc : c.id ∈ s.expanded ∧ (mapGet s.childMap c.id).isSome
      · rw [if_pos hc, if_pos hc, ih]
        simp
      · rw [if_neg hc, if_neg hc, preorderFlatten_nil]
        simp

/-- Claim C2: for every store snapshot and root list, the node sequence
produced by the recursive `CollectionTreeItem` renderer is exactly the
depth-first pre-order flattening of the materialized forest: each node is
followed immediately by its children at depth + 1, children taken in cached
(client) order, and a node's children are included iff the node is in the
expanded set and its children-cache key is present. -/
theorem renderTree_eq_preorder_spec (s : TreeState) (roots : List Collection)
    (fuel : Nat) :
    renderTree s roots fuel = visibleNodesSpec s roots fuel :=
  (preorderFlatten_map_buildVTree s fuel 0 roots).symm

/-- Claim C6 as stated is false: `getAllCollections` gathers only the cached
children-lists reachable from the top-level collections by following cached
child links, not every cached children-list value. Concretely, with no
top-level collection and a cache entry keyed by 5 holding collection 7, the
function returns the empty list although collection 7 is an element of a
cached children-list value. -/
theorem getAllCollections_missing_unreachable_cex :
    mapGet [(5, [⟨7, "x", none, some 5⟩])] 5 = some [⟨7, "x", none, some 5⟩] ∧
    getAllCollections [] [(5, [⟨7, "x", none, some 5⟩])] 4 = [] := by
  decide

theorem addChildren_sound (m : List (Nat × List Collection)) :
    ∀ fuel parentId c, c ∈ addChildren m fuel parentId →
      ∃ k l, mapGet m k = some l ∧ c ∈ l := by
  intro fuel
  induction fuel with
  | zero =>
    intro parentId c h
    simp [addChildren] at h
  | succ fuel ih =>
    intro parentId c h
    cases hm : mapGet m parentId with
    | none => simp [addChildren, hm] at h
    | some children =>
      simp only [addChildren, hm, List.mem_append, List.mem_flatMap] at h
      rcases h with h | ⟨child, _, hc⟩
      · exact ⟨parentId, children, hm, h⟩
      · exact ih _ _ hc

/-- Claim C6 (amended): `getAllCollections` returns the top-level collections
followed by the cached children-lists of the nodes reachable from them
through the children cache, regardless of the expanded set (which it never
consults); every returned collection is a top-level collection or an element
of some cached children-list, but a cached entry whose key is not reachable
from a top-level collection is omitted rather than included. -/
theorem getAllCollections_sound (roots : List Collection)
    (m : List (Nat × List Collection)) (fuel : Nat) (c : Collection)
    (hc : c ∈ getAllCollections roots m fuel) :
    c ∈ roots ∨ ∃ k l, mapGet m k = some l ∧ c ∈ l := by
  simp only [getAllCollections, List.mem_append, List.mem_flatMap] at hc
  rcases hc with hc | ⟨col, _, hc⟩
  · exact Or.inl hc
  · exact Or.inr (addChildren_sound m fuel col.id c hc)

theorem getAllCollections_sound_witness :
    (⟨2, "B", none, some 1⟩ : Collection) ∈ [(⟨1, "A", some 10, none⟩ : Collection)] ∨
    ∃ k l, mapGet [(1, [⟨2, "B", none, some 1⟩])] k = some l ∧
      (⟨2, "B", none, some 1⟩ : Collection) ∈ l :=
  getAllCollections_sound [⟨1, "A", some 10, none⟩] [(1, [⟨2, "B", none, some 1⟩])] 3
    ⟨2, "B", none, some 1⟩ (by decide)

/-- A run of space characters; the source indents two spaces per resolved
ancestor step. -/
def spaces (n : Nat) : String :=
  String.mk (List.replicate n ' ')

/-- The ancestor chain of a collection as the indent walk resolves it:
`chainFromB all c as` holds when following `parent_collection_id` from `c`
via first-match lookup in `all` visits exactly the collections of `as` in
order and ends at a collection with no parent. -/
def chainFromB (all : List Collection) : Collection → List Collection → Bool
  | c, [] => c.parent_collection_id.isNone
  | c, a :: rest =>
    match c.parent_collection_id with
    | none => false
    | some p =>
      if all.find? (fun x => x.id == p) = some a then chainFromB all a rest else false

/-- A broken ancestor chain: following `parent_collection_id` from `c` visits
the collections of `as` in order and then reaches a collection whose parent id
resolves to nothing in `all`. -/
def brokenFromB (all : List Collection) : Collection → List Collection → Bool
  | c, [] =>
    match c.parent_collection_id with
    | none => false
    | some p => (all.find? (fun x => x.id == p)).isNone
  | c, a :: rest =>
    match c.parent_collection_id with
    | none => false
    | some p =>
      if all.find? (fun x => x.id == p) = some a then brokenFromB all a rest else false

theorem spaces_add_two (n : Nat) : "  " ++ spaces n = spaces (n + 2) := rfl

theorem indentLoop_none (all : List Collection) (fuel : Nat) :
    indentLoop all fuel none = "" := by
  cases fuel <;> rfl

theorem indentLoop_chain (all : List Collection) :
    ∀ as (c : Collection), chainFromB all c as = true →
      ∀ fuel, as.length + 1 ≤ fuel →
        indentLoop all fuel (some c) = spaces (2 * as.length) := by
  intro as
  induction as with
  | nil =>
    intro c hc fuel hf
    obtain ⟨f, rfl⟩ : ∃ f, fuel = f + 1 := ⟨fuel - 1, by omega⟩
    rw [chainFromB, Option.isNone_iff_eq_none] at hc
    rw [indentLoop]
    simp only [hc]
    rfl
  | cons a rest ih =>
    intro c hc fuel hf
    obtain ⟨f, rfl⟩ : ∃ f, fuel = f + 1 := ⟨fuel - 1, by omega⟩
    rw [chainFromB] at hc
    cases hp : c.parent_collection_id with
    | none => simp [hp] at hc
    | some p =>
      simp only [hp] at hc
      by_cases hfind : all.find? (fun x => x.id == p) = some a
      · rw [if_pos hfind] at hc
        rw [indentLoop]
        simp only [hp]
        rw [hfind, ih a hc f (by simp only [List.length_cons] at hf; omega)]
        rw [spaces_add_two]
        congr 1
      · rw [if_neg hfind] at hc
        exact absurd hc (by simp)

theorem indentLoop_broken (all : List Collection) :
    ∀ as (c : Collection), brokenFromB all c as = true →
      ∀ fuel, as.length + 1 ≤ fuel →
        indentLoop all fuel (some c) = spaces (2 * (as.length + 1)) := by
  intro as
  induction as with
  | nil =>
    intro c hc fuel hf
    obtain ⟨f, rfl⟩ : ∃ f, fuel = f + 1 := ⟨fuel - 1, by omega⟩
    rw [brokenFromB] at hc
    cases hp : c.parent_collection_id with
    | none => simp [hp] at hc
    | some p =>
      simp only [hp, Option.isNone_iff_eq_none] at hc
      rw [indentLoop]
      simp only [hp]
      rw [hc, indentLoop_none]
      rfl
  | cons a rest ih =>
    intro c hc fuel hf
    obtain ⟨f, rfl⟩ : ∃ f, fuel = f + 1 := ⟨fuel - 1, by omega⟩
    rw [brokenFromB] at hc
    cases hp : c.parent_collection_id with
    | none => simp [hp] at hc
    | some p =>
      simp only [hp] at hc
      by_cases hfind : all.find? (fun x => x.id == p) = some a
      · rw [if_pos hfind] at hc
        rw [indentLoop]
        simp only [hp]
        rw [hfind, ih a hc f (by simp only [List.length_cons] at hf; omega)]
        rw [spaces_add_two]
        congr 1
      · rw [if_neg hfind] at hc
        exact absurd hc (by simp)

/-- Claim C7: provided the parent relation resolves as a chain (the forest
precondition), `getCollectionIndent` for a node whose full ancestor chain is
present in `getAllCollections` returns exactly two spaces per ancestor, and
for a node whose chain breaks at an ancestor missing from the known set it
terminates without error, returning the shorter best-effort indent of the
resolved steps. -/
theorem getCollectionIndent_depth (roots : List Collection)
    (m : List (Nat × List Collection)) (fuelAll fuelWalk collectionId : Nat)
    (c : Collection) (as : List Collection)
    (hfind : (getAllCollections roots m fuelAll).find? (fun x => x.id == collectionId)
      = some c)
    (hfuel : as.length + 1 ≤ fuelWalk) :
    (chainFromB (getAllCollections roots m fuelAll) c as = true →
      getCollectionIndent roots m fuelAll fuelWalk collectionId
        = spaces (2 * as.length)) ∧
    (brokenFromB (getAllCollections roots m fuelAll) c as = true →
      getCollectionIndent roots m fuelAll fuelWalk collectionId
        = spaces (2 * (as.length + 1))) := by
  constructor
  · intro hc
    rw [getCollectionIndent]
    rw [hfind]
    exact indentLoop_chain _ as c hc fuelWalk hfuel
  · intro hc
    rw [getCollectionIndent]
    rw [hfind]
    exact indentLoop_broken _ as c hc fuelWalk hfuel

theorem getCollectionIndent_depth_witness :
    (getCollectionIndent [⟨1, "A", some 10, none⟩] [(1, [⟨2, "B", none, some 1⟩])] 3 4 2
      = spaces 2) ∧
    (getCollectionIndent [⟨9, "C", none, some 4⟩] [] 3 4 9 = spaces 2) := by
  constructor
  · exact (getCollectionIndent_depth [⟨1, "A", some 10, none⟩]
      [(1, [⟨2, "B", none, some 1⟩])] 3 4 2 ⟨2, "B", none, some 1⟩
      [⟨1, "A", some 10, none⟩] (by decide) (by decide)).1 (by decide)
  · exact (getCollectionIndent_depth [⟨9, "C", none, some 4⟩] [] 3 4 9
      ⟨9, "C", none, some 4⟩ [] (by decide) (by decide)).2 (by decide)

/-- Claim C9 as stated is false: the lines
`loadingChildren.add(collectionId); loadingChildren = loadingChildren;` of
`toggleExpand` mutate the loading set in place and re-assign the same object
— the container value changes while its identity is kept, so not every store
mutation replaces the container with a newly constructed copy. -/
theorem loading_mutation_in_place_cex :
    (markLoadingInPlace ⟨⟨0, []⟩, ⟨1, []⟩, ⟨2, []⟩, 3⟩ 7).loading.ref
      = (⟨⟨0, []⟩, ⟨1, []⟩, ⟨2, []⟩, 3⟩ : RTreeState).loading.ref ∧
    (markLoadingInPlace ⟨⟨0, []⟩, ⟨1, []⟩, ⟨2, []⟩, 3⟩ 7).loading.val
      ≠ (⟨⟨0, []⟩, ⟨1, []⟩, ⟨2, []⟩, 3⟩ : RTreeState).loading.val := by
  decide

theorem loadAllDescendantsRefs_mono (fetch : Nat → Except String (List Collection)) :
    ∀ fuel cols m n, n ≤ (loadAllDescendantsRefs fetch fuel cols m n).2 := by
  intro fuel
  induction fuel with
  | zero => intro cols m n; simp [loadAllDescendantsRefs]
  | succ fuel ih =>
    intro cols
    induction cols with
    | nil => intro m n; simp [loadAllDescendantsRefs]
    | cons col rest ihc =>
      intro m n
      rw [loadAllDescendantsRefs]
      cases hcol : fetch col.id with
      | ok children =>
        by_cases hemp : children.isEmpty
        · have h₁ := ihc ⟨n, mapSet m.val col.id children⟩ (n + 1)
          simp only [hcol, hemp, if_pos]
          omega
        · have h₁ := ih children ⟨n, mapSet m.val col.id children⟩ (n + 1)
          have h₂ := ihc
            (loadAllDescendantsRefs fetch fuel children ⟨n, mapSet m.val col.id children⟩ (n + 1)).1
            (loadAllDescendantsRefs fetch fuel children ⟨n, mapSet m.val col.id children⟩ (n + 1)).2
          simp only [hcol, hemp, Bool.false_eq_true, if_false]
          omega
      | error msg =>
        have h₁ := ihc m n
        simp only [hcol]
        omega

/-- Claim C9 (amended): mutations of the expanded set and of the children
cache do replace the whole container with a newly constructed copy (every
`toggleExpand` leaves the expanded set with a fresh object identity), but the
loading set is never replaced: `toggleExpand` mutates it in place through
`add`/`delete` followed by a self-assignment, keeping its object identity,
and relies on the assignment-based invalidation of the framework rather than
a new reference. -/
theorem toggleExpandRefs_reference_behavior
    (fetch : Nat → Except String (List Collection)) (fuel id : Nat) (s : RTreeState)
    (h : s.expanded.ref < s.nextRef) :
    (toggleExpandRefs fetch fuel id s).loading.ref = s.loading.ref ∧
    (toggleExpandRefs fetch fuel id s).expanded.ref ≠ s.expanded.ref := by
  by_cases hexp : id ∈ s.expanded.val
  · refine ⟨by simp [toggleExpandRefs, hexp], ?_⟩
    simp only [toggleExpandRefs, if_pos hexp]
    omega
  · by_cases hcache : (mapGet s.childMap.val id).isSome
    · refine ⟨by simp [toggleExpandRefs, hexp, hcache], ?_⟩
      simp only [toggleExpandRefs, if_neg hexp, if_pos hcache]
      omega
    · cases hfetch : fetch id with
      | ok children =>
        by_cases hemp : children.isEmpty
        · refine ⟨?_, ?_⟩ <;>
            simp only [toggleExpandRefs, if_neg hexp, if_neg hcache, hfetch,
              if_pos hemp, markLoadingInPlace, unmarkLoadingInPlace] <;>
            omega
        · have hmono := loadAllDescendantsRefs_mono fetch fuel children
            ⟨s.nextRef, mapSet (markLoadingInPlace s id).childMap.val id children⟩
            (s.nextRef + 1)
          refine ⟨?_, ?_⟩ <;>
            simp only [toggleExpandRefs, if_neg hexp, if_neg hcache, hfetch,
              if_neg hemp, markLoadingInPlace, unmarkLoadingInPlace] <;>
            simp only [markLoadingInPlace] at hmono <;>
            omega
      | error msg =>
        refine ⟨?_, ?_⟩ <;>
          simp only [toggleExpandRefs, if_neg hexp, if_neg hcache, hfetch,
            markLoadingInPlace, unmarkLoadingInPlace] <;>
          omega

theorem toggleExpandRefs_reference_behavior_witness :
    (toggleExpandRefs (fun _ => .ok []) 2 1 ⟨⟨0, []⟩, ⟨1, []⟩, ⟨2, []⟩, 3⟩).loading.ref
      = (⟨⟨0, []⟩, ⟨1, []⟩, ⟨2, []⟩, 3⟩ : RTreeState).loading.ref ∧
    (toggleExpandRefs (fun _ => .ok []) 2 1 ⟨⟨0, []⟩, ⟨1, []⟩, ⟨2, []⟩, 3⟩).expanded.ref
      ≠ (⟨⟨0, []⟩, ⟨1, []⟩, ⟨2, []⟩, 3⟩ : RTreeState).expanded.ref :=
  toggleExpandRefs_reference_behavior (fun _ => .ok []) 2 1
    ⟨⟨0, []⟩, ⟨1, []⟩, ⟨2, []⟩, 3⟩ (by decide)

theorem render006L4_levels (s : TreeState) (c : Collection) (x : RenderedItem)
    (hx : x ∈ render006L4 s c) : x.2.1 = 4 ∧ x.2.2 = false := by
  simp only [render006L4, List.mem_singleton] at hx
  subst hx
  exact ⟨rfl, rfl⟩

theorem render006L3_levels (s : TreeState) (c : Collection) (x : RenderedItem)
    (hx : x ∈ render006L3 s c) : x.2.1 ≤ 4 ∧ (x.2.1 = 4 → x.2.2 = false) := by
  rcases List.mem_cons.mp hx with h | h
  · subst h
    exact ⟨by simp, fun hh => absurd hh (by simp)⟩
  · by_cases hc : c.id ∈ s.expanded ∧ (mapGet s.childMap c.id).isSome
    · rw [if_pos hc] at h
      obtain ⟨c₄, _, h₄⟩ := List.mem_flatMap.mp h
      have hlvl := render006L4_levels s c₄ x h₄
      exact ⟨by omega, fun _ => hlvl.2⟩
    · rw [if_neg hc] at h
      simp at h

theorem render006L2_levels (s : TreeState) (c : Collection) (x : RenderedItem)
    (hx : x ∈ render006L2 s c) : x.2.1 ≤ 4 ∧ (x.2.1 = 4 → x.2.2 = false) := by
  rcases List.mem_cons.mp hx with h | h
  · subst h
    exact ⟨by simp, fun hh => absurd hh (by simp)⟩
  · by_cases hc : c.id ∈ s.expanded ∧ (mapGet s.childMap c.id).isSome
    · rw [if_pos hc] at h
      obtain ⟨c₃, _, h₃⟩ := List.mem_flatMap.mp h
      exact render006L3_levels s c₃ x h₃
    · rw [if_neg hc] at h
      simp at h

theorem render006L1_levels (s : TreeState) (c : Collection) (x : RenderedItem)
    (hx : x ∈ render006L1 s c) : x.2.1 ≤ 4 ∧ (x.2.1 = 4 → x.2.2 = false) := by
  rcases List.mem_cons.mp hx with h | h
  · subst h
    exact ⟨by simp, fun hh => absurd hh (by simp)⟩
  · by_cases hc : c.id ∈ s.expanded ∧ (mapGet s.childMap c.id).isSome
    · rw [if_pos hc] at h
      obtain ⟨c₂, _, h₂⟩ := List.mem_flatMap.mp h
      exact render006L2_levels s c₂ x h₂
    · rw [if_neg hc] at h
      simp at h

theorem render006L0_levels (s : TreeState) (c : Collection) (x : RenderedItem)
    (hx : x ∈ render006L0 s c) : x.2.1 ≤ 4 ∧ (x.2.1 = 4 → x.2.2 = false) := by
  rcases List.mem_cons.mp hx with h | h
  · subst h
    exact ⟨by simp, fun hh => absurd hh (by simp)⟩
  · by_cases hc : c.id ∈ s.expanded ∧ (mapGet s.childMap c.id).isSome
    · rw [if_pos hc] at h
      obtain ⟨c₁, _, h₁⟩ := List.mem_flatMap.mp h
      exact render006L1_levels s c₁ x h₁
    · rw [if_neg hc] at h
      simp at h

/-- Claim C10: in the inline (non-component) project-detail tree template,
rendering is truncated at nesting level 4: for every expanded set and
children cache, every rendered item sits at level at most 4, and an item at
level 4 carries no expand toggle — so no collection at depth 5 or greater
ever appears, even when cached with all its ancestors expanded. -/
theorem render006_depth_capped (s : TreeState) (roots : List Collection)
    (x : RenderedItem) (hx : x ∈ render006 s roots) :
    x.2.1 ≤ 4 ∧ (x.2.1 = 4 → x.2.2 = false) := by
  obtain ⟨c, _, h⟩ := List.mem_flatMap.mp hx
  exact render006L0_levels s c x h

theorem render006_depth_capped_witness :
    ((⟨5, "e", none, some 4⟩, 4, false) : RenderedItem).2.1 ≤ 4 ∧
    (((⟨5, "e", none, some 4⟩, 4, false) : RenderedItem).2.1 = 4 →
      ((⟨5, "e", none, some 4⟩, 4, false) : RenderedItem).2.2 = false) :=
  render006_depth_capped
    ⟨[1, 2, 3, 4, 5],
     [(1, [⟨2, "b", none, some 1⟩]), (2, [⟨3, "c", none, some 2⟩]),
      (3, [⟨4, "d", none, some 3⟩]), (4, [⟨5, "e", none, some 4⟩]),
      (5, [⟨6, "f", none, some 5⟩])], []⟩
    [⟨1, "a", some 9, none⟩] (⟨5, "e", none, some 4⟩, 4, false) (by decide)

end CollectionTree
